import Mathlib

/-!
Verification of the link-shortener core: the bounded LRU cache
(`src/utils/lru-cache.ts`), the fixed-window rate limiter store and
middleware (`src/middleware/rate-limiter.ts`), the error translator
(`src/middleware/error-handler.ts`), and the resolution service
(`src/services/link.service.ts`) with its in-memory repository.

JavaScript `Map<string, V>` iterates in insertion order; the code relies
on that order as an implicit recency queue.  We model a `Map` as an
association list in insertion order, oldest entry first.
-/

set_option linter.unusedVariables false

universe u

variable {V : Type u}

/-- A JavaScript `Map<string, V>`: entries in insertion order, oldest first. -/
abbrev JsMap (V : Type u) := List (String × V)

namespace JsMap

/-- `Map.prototype.get`: value of the first entry with the given key. -/
def jsGet (k : String) : JsMap V → Option V
  | [] => none
  | p :: rest => if p.1 = k then some p.2 else jsGet k rest

/-- `Map.prototype.delete`: drops the entry with the given key, keeping order. -/
def jsDelete (k : String) : JsMap V → JsMap V
  | [] => []
  | p :: rest => if p.1 = k then rest else p :: jsDelete k rest

/-- `Map.prototype.set`: overwrites in place when the key is present
(insertion position is retained), otherwise appends a new entry at the end. -/
def jsSet (k : String) (v : V) : JsMap V → JsMap V
  | [] => [(k, v)]
  | p :: rest => if p.1 = k then (k, v) :: rest else p :: jsSet k v rest

/-- `Map.prototype.has`. -/
def jsHas (k : String) (l : JsMap V) : Bool := (jsGet k l).isSome

/-- The keys of the map, in insertion order (`Map.prototype.keys`). -/
def keysOf (l : JsMap V) : List String := l.map Prod.fst

@[simp] theorem keysOf_nil : keysOf ([] : JsMap V) = [] := rfl

@[simp] theorem keysOf_cons (p : String × V) (l : JsMap V) :
    keysOf (p :: l) = p.1 :: keysOf l := rfl

@[simp] theorem keysOf_append (l₁ l₂ : JsMap V) :
    keysOf (l₁ ++ l₂) = keysOf l₁ ++ keysOf l₂ := by
  simp [keysOf]

theorem jsGet_eq_none_iff (k : String) (l : JsMap V) :
    jsGet k l = none ↔ k ∉ keysOf l := by
  induction l with
  | nil => simp [jsGet]
  | cons p rest ih =>
    by_cases h : p.1 = k
    · simp [jsGet, h]
    · simp [jsGet, h, ih, Ne.symm h]

theorem jsGet_isSome_iff (k : String) (l : JsMap V) :
    (jsGet k l).isSome = true ↔ k ∈ keysOf l := by
  rw [Option.isSome_iff_ne_none]
  constructor
  · intro h
    by_contra hk
    exact h ((jsGet_eq_none_iff k l).2 hk)
  · intro h hnone
    exact ((jsGet_eq_none_iff k l).1 hnone) h

theorem jsHas_eq_true_iff (k : String) (l : JsMap V) :
    jsHas k l = true ↔ k ∈ keysOf l := by
  simp [jsHas, jsGet_isSome_iff]

theorem jsHas_eq_false_iff (k : String) (l : JsMap V) :
    jsHas k l = false ↔ k ∉ keysOf l := by
  constructor
  · intro h hk
    have := (jsHas_eq_true_iff k l).2 hk
    simp [h] at this
  · intro hk
    have : jsHas k l ≠ true := fun h => hk ((jsHas_eq_true_iff k l).1 h)
    simpa using this

theorem mem_keysOf_of_jsGet_eq_some {k : String} {v : V} {l : JsMap V}
    (h : jsGet k l = some v) : k ∈ keysOf l := by
  rw [← jsGet_isSome_iff, h]
  rfl

theorem jsSet_of_not_mem {k : String} {l : JsMap V} (h : k ∉ keysOf l) (v : V) :
    jsSet k v l = l ++ [(k, v)] := by
  induction l with
  | nil => rfl
  | cons p rest ih =>
    have hp : p.1 ≠ k := by
      intro hk
      exact h (by simp [hk])
    have hrest : k ∉ keysOf rest := fun hk => h (by simp [hk])
    simp [jsSet, hp, ih hrest]

theorem jsDelete_sublist (k : String) (l : JsMap V) : (jsDelete k l).Sublist l := by
  induction l with
  | nil => simp [jsDelete]
  | cons p rest ih =>
    by_cases h : p.1 = k
    · simp only [jsDelete, if_pos h]
      exact List.sublist_cons_self p rest
    · simp only [jsDelete, if_neg h]
      exact List.Sublist.cons₂ p ih

theorem jsDelete_of_not_mem {k : String} {l : JsMap V} (h : k ∉ keysOf l) :
    jsDelete k l = l := by
  induction l with
  | nil => rfl
  | cons p rest ih =>
    have hp : p.1 ≠ k := fun hk => h (by simp [hk])
    have hrest : k ∉ keysOf rest := fun hk => h (by simp [hk])
    simp [jsDelete, hp, ih hrest]

theorem not_mem_keysOf_jsDelete {k : String} {l : JsMap V}
    (hnd : (keysOf l).Nodup) : k ∉ keysOf (jsDelete k l) := by
  induction l with
  | nil => simp [jsDelete]
  | cons p rest ih =>
    rcases List.nodup_cons.1 hnd with ⟨hp, hrest⟩
    by_cases h : p.1 = k
    · subst h
      intro hk
      simp [jsDelete] at hk
      exact hp hk
    · intro hk
      simp [jsDelete, h] at hk
      rcases hk with hk | hk
      · exact h hk.symm
      · exact ih hrest hk

theorem keysOf_jsDelete_nodup {k : String} {l : JsMap V}
    (hnd : (keysOf l).Nodup) : (keysOf (jsDelete k l)).Nodup :=
  List.Nodup.sublist (List.Sublist.map Prod.fst (jsDelete_sublist k l)) hnd

theorem jsGet_jsSet_self (k : String) (v : V) (l : JsMap V) :
    jsGet k (jsSet k v l) = some v := by
  induction l with
  | nil => simp [jsSet, jsGet]
  | cons p rest ih =>
    by_cases h : p.1 = k
    · simp [jsSet, h, jsGet]
    · simp [jsSet, h, jsGet, ih]

theorem jsGet_jsSet_ne {k k' : String} (h : k' ≠ k) (v : V) (l : JsMap V) :
    jsGet k' (jsSet k v l) = jsGet k' l := by
  have h2 : ¬ (k = k') := fun hk => h hk.symm
  induction l with
  | nil => simp [jsSet, jsGet, h2]
  | cons p rest ih =>
    by_cases hp : p.1 = k
    · have hp' : ¬ (p.1 = k') := by rw [hp]; exact h2
      simp [jsSet, hp, jsGet, h2, hp']
    · simp only [jsSet, if_neg hp, jsGet]
      by_cases hp' : p.1 = k'
      · simp only [if_pos hp']
      · simp only [if_neg hp', ih]

theorem jsGet_jsDelete_ne {k k' : String} (h : k' ≠ k) (l : JsMap V) :
    jsGet k' (jsDelete k l) = jsGet k' l := by
  induction l with
  | nil => simp [jsDelete]
  | cons p rest ih =>
    by_cases hp : p.1 = k
    · have hp' : ¬ (p.1 = k') := by
        rw [hp]
        intro hk
        exact h hk.symm
      have h2 : ¬ (k = k') := fun hk => h hk.symm
      simp [jsDelete, hp, jsGet, hp', h2]
    · simp only [jsDelete, if_neg hp, jsGet]
      by_cases hp' : p.1 = k'
      · simp only [if_pos hp']
      · simp only [if_neg hp', ih]

theorem length_jsDelete_of_mem {k : String} {l : JsMap V}
    (h : k ∈ keysOf l) : (jsDelete k l).length = l.length - 1 := by
  induction l with
  | nil => simp at h
  | cons p rest ih =>
    by_cases hp : p.1 = k
    · simp [jsDelete, hp]
    · have hrest : k ∈ keysOf rest := by
        rcases (by simpa using h) with h1 | h1
        · exact absurd h1.symm hp
        · exact h1
      have hlen : 1 ≤ rest.length := by
        rcases rest with _ | _
        · simp [keysOf] at hrest
        · simp
      simp [jsDelete, hp, ih hrest]
      omega

theorem length_jsSet_of_mem {k : String} {l : JsMap V}
    (h : k ∈ keysOf l) (v : V) : (jsSet k v l).length = l.length := by
  induction l with
  | nil => simp at h
  | cons p rest ih =>
    by_cases hp : p.1 = k
    · simp [jsSet, hp]
    · have hrest : k ∈ keysOf rest := by
        rcases (by simpa using h) with h1 | h1
        · exact absurd h1.symm hp
        · exact h1
      simp [jsSet, hp, ih hrest]

theorem length_jsSet_of_not_mem {k : String} {l : JsMap V}
    (h : k ∉ keysOf l) (v : V) : (jsSet k v l).length = l.length + 1 := by
  rw [jsSet_of_not_mem h v]
  simp

end JsMap

open JsMap

/-- The LRU cache of `src/utils/lru-cache.ts`.  `entries` is the backing
JavaScript `Map` in insertion order (oldest first); recency is the list
position, exactly as the source relies on `Map` iteration order. -/
structure LruCache (V : Type u) where
  entries : JsMap V
  maxSize : Nat
  deriving DecidableEq

namespace LruCache

/-- `new LruCache(maxSize)`. -/
def empty (maxSize : Nat) : LruCache V := ⟨[], maxSize⟩

/-- `get(key)`: on a hit, deletes and re-inserts the entry, moving it to the
most-recently-used end; on a miss the cache is untouched. -/
def get (c : LruCache V) (key : String) : Option V × LruCache V :=
  match jsGet key c.entries with
  | none => (none, c)
  | some value =>
      (some value, { c with entries := jsSet key value (jsDelete key c.entries) })

/-- Eviction step of `set`: `entries.keys().next().value` is the first key in
insertion order, and that entry is deleted. -/
def evictOldest : JsMap V → JsMap V
  | [] => []
  | p :: rest => jsDelete p.1 (p :: rest)

/-- Backing-map transition of `set(key, value)`: delete first when the key is
present, insert at the end, then evict the oldest entry when the size
exceeds `maxSize`. -/
def setSteps (maxSize : Nat) (key : String) (value : V) (l : JsMap V) : JsMap V :=
  let e1 := if jsHas key l then jsDelete key l else l
  let e2 := jsSet key value e1
  if e2.length > maxSize then evictOldest e2 else e2

/-- `set(key, value)`. -/
def set (c : LruCache V) (key : String) (value : V) : LruCache V :=
  { c with entries := setSteps c.maxSize key value c.entries }

/-- `has(key)`: a pure read of the backing map (`Map.prototype.has`). -/
def has (c : LruCache V) (key : String) : Bool := jsHas key c.entries

/-- `size` getter. -/
def size (c : LruCache V) : Nat := c.entries.length

/-- `clear()`. -/
def clear (c : LruCache V) : LruCache V := { c with entries := [] }

@[simp] theorem maxSize_set (c : LruCache V) (k : String) (v : V) :
    (c.set k v).maxSize = c.maxSize := rfl

@[simp] theorem maxSize_clear (c : LruCache V) : c.clear.maxSize = c.maxSize := rfl

theorem maxSize_get_snd (c : LruCache V) (k : String) :
    ((c.get k).2).maxSize = c.maxSize := by
  unfold get
  cases jsGet k c.entries <;> rfl

theorem evictOldest_eq_tail (l : JsMap V) : evictOldest l = l.tail := by
  cases l with
  | nil => rfl
  | cons p rest => simp [evictOldest, jsDelete]

theorem get_of_jsGet_none {c : LruCache V} {k : String}
    (h : jsGet k c.entries = none) : c.get k = (none, c) := by
  simp [get, h]

theorem get_of_jsGet_some {c : LruCache V} {k : String} {v : V}
    (hnd : (keysOf c.entries).Nodup) (h : jsGet k c.entries = some v) :
    c.get k = (some v, { c with entries := jsDelete k c.entries ++ [(k, v)] }) := by
  simp [get, h, jsSet_of_not_mem (not_mem_keysOf_jsDelete hnd)]

theorem jsGet_append_of_some {k : String} {v : V} {l₁ : JsMap V} (l₂ : JsMap V)
    (h : jsGet k l₁ = some v) : jsGet k (l₁ ++ l₂) = some v := by
  induction l₁ with
  | nil => simp [jsGet] at h
  | cons p rest ih =>
    by_cases hp : p.1 = k
    · simp [jsGet, hp] at h
      simp [jsGet, hp, h]
    · simp [jsGet, hp] at h
      simp [jsGet, hp, ih h]

theorem jsGet_append_of_none {k : String} {l₁ : JsMap V} (l₂ : JsMap V)
    (h : jsGet k l₁ = none) : jsGet k (l₁ ++ l₂) = jsGet k l₂ := by
  induction l₁ with
  | nil => simp
  | cons p rest ih =>
    by_cases hp : p.1 = k
    · simp [jsGet, hp] at h
    · simp [jsGet, hp] at h
      simp [jsGet, hp, ih h]

/-- `get` never changes what any key maps to: a hit only reorders. -/
theorem jsGet_get_snd {c : LruCache V} (hnd : (keysOf c.entries).Nodup)
    (k k' : String) : jsGet k' ((c.get k).2).entries = jsGet k' c.entries := by
  cases hg : jsGet k c.entries with
  | none => rw [get_of_jsGet_none hg]
  | some v =>
    rw [get_of_jsGet_some hnd hg]
    by_cases hk : k' = k
    · subst hk
      have hnone : jsGet k' (jsDelete k' c.entries) = none :=
        (jsGet_eq_none_iff _ _).2 (not_mem_keysOf_jsDelete hnd)
      rw [show ({ c with entries := jsDelete k' c.entries ++ [(k', v)] } :
            LruCache V).entries = jsDelete k' c.entries ++ [(k', v)] from rfl]
      rw [jsGet_append_of_none _ hnone, hg]
      simp [jsGet]
    · rw [show ({ c with entries := jsDelete k c.entries ++ [(k, v)] } :
            LruCache V).entries = jsDelete k c.entries ++ [(k, v)] from rfl]
      cases hd : jsGet k' (jsDelete k c.entries) with
      | none =>
        rw [jsGet_append_of_none _ hd]
        have h2 : ¬ (k = k') := fun hk2 => hk hk2.symm
        rw [← jsGet_jsDelete_ne hk c.entries, hd]
        simp [jsGet, h2]
      | some w =>
        rw [jsGet_append_of_some _ hd, ← jsGet_jsDelete_ne hk c.entries, hd]

theorem nodup_get_snd {c : LruCache V} (hnd : (keysOf c.entries).Nodup)
    (k : String) : (keysOf ((c.get k).2).entries).Nodup := by
  cases hg : jsGet k c.entries with
  | none => rw [get_of_jsGet_none hg]; exact hnd
  | some v =>
    rw [get_of_jsGet_some hnd hg]
    show (keysOf (jsDelete k c.entries ++ [(k, v)])).Nodup
    rw [keysOf_append]
    rw [List.nodup_append]
    refine ⟨keysOf_jsDelete_nodup hnd, by simp, ?_⟩
    intro a ha hb
    simp [keysOf] at hb
    subst hb
    exact not_mem_keysOf_jsDelete hnd ha

theorem setSteps_of_not_mem {k : String} {l : JsMap V} (h : k ∉ keysOf l)
    (m : Nat) (v : V) :
    setSteps m k v l =
      if l.length + 1 > m then (l ++ [(k, v)]).tail else l ++ [(k, v)] := by
  have hhas : jsHas k l = false := (jsHas_eq_false_iff k l).2 h
  simp [setSteps, hhas, jsSet_of_not_mem h, evictOldest_eq_tail]


theorem setSteps_of_mem {k : String} {l : JsMap V}
    (hnd : (keysOf l).Nodup) (hmem : k ∈ keysOf l) (m : Nat) (v : V) :
    setSteps m k v l =
      if (jsDelete k l).length + 1 > m then (jsDelete k l ++ [(k, v)]).tail
      else jsDelete k l ++ [(k, v)] := by
  have hhas : jsHas k l = true := (jsHas_eq_true_iff k l).2 hmem
  have hdel : k ∉ keysOf (jsDelete k l) := not_mem_keysOf_jsDelete hnd
  simp [setSteps, hhas, jsSet_of_not_mem hdel, evictOldest_eq_tail]

theorem jsGet_append_singleton_self {k : String} {l : JsMap V}
    (h : k ∉ keysOf l) (v : V) : jsGet k (l ++ [(k, v)]) = some v := by
  rw [jsGet_append_of_none _ ((jsGet_eq_none_iff k l).2 h)]
  simp [jsGet]

theorem jsGet_tail_append_singleton {k : String} {l : JsMap V}
    (hne : l ≠ []) (h : k ∉ keysOf l) (v : V) :
    jsGet k ((l ++ [(k, v)]).tail) = some v := by
  cases l with
  | nil => exact absurd rfl hne
  | cons p rest =>
    have hr : k ∉ keysOf rest := fun hk => h (by simp [hk])
    rw [List.cons_append, List.tail_cons]
    exact jsGet_append_singleton_self hr v

/-- After a `set` the key is bound to the new value, provided the capacity is
at least 1 (with capacity 0 the fresh entry is itself evicted). -/
theorem jsGet_set_self {c : LruCache V} (hnd : (keysOf c.entries).Nodup)
    (hcap : 1 ≤ c.maxSize) (k : String) (v : V) :
    jsGet k (c.set k v).entries = some v := by
  show jsGet k (setSteps c.maxSize k v c.entries) = some v
  by_cases hmem : k ∈ keysOf c.entries
  · rw [setSteps_of_mem hnd hmem]
    have hdel : k ∉ keysOf (jsDelete k c.entries) := not_mem_keysOf_jsDelete hnd
    by_cases hlen : (jsDelete k c.entries).length + 1 > c.maxSize
    · rw [if_pos hlen]
      have hdne : jsDelete k c.entries ≠ [] := by
        intro hnil
        rw [hnil] at hlen
        simp at hlen
        omega
      exact jsGet_tail_append_singleton hdne hdel v
    · rw [if_neg hlen]
      exact jsGet_append_singleton_self hdel v
  · rw [setSteps_of_not_mem hmem]
    by_cases hlen : c.entries.length + 1 > c.maxSize
    · rw [if_pos hlen]
      have hdne : c.entries ≠ [] := by
        intro hnil
        rw [hnil] at hlen
        simp at hlen
        omega
      exact jsGet_tail_append_singleton hdne hmem v
    · rw [if_neg hlen]
      exact jsGet_append_singleton_self hmem v

theorem jsGet_if_tail_aux {k k' : String} {v w : V} {l : JsMap V} (m : Nat)
    (hnd : (keysOf l).Nodup) (hk : k ∉ keysOf l) (hne : k' ≠ k)
    (h : jsGet k' (if (l ++ [(k, v)]).length > m then (l ++ [(k, v)]).tail
          else l ++ [(k, v)]) = some w) :
    jsGet k' l = some w := by
  have h2 : jsGet k' (l ++ [(k, v)]) = some w := by
    by_cases hlen : (l ++ [(k, v)]).length > m
    · rw [if_pos hlen] at h
      cases l with
      | nil => simp [jsGet] at h
      | cons q t =>
        rw [List.cons_append, List.tail_cons] at h
        have hk't : k' ∈ keysOf (t ++ [(k, v)]) := mem_keysOf_of_jsGet_eq_some h
        have hq : ¬ (q.1 = k') := by
          intro he
          rcases List.nodup_cons.1 hnd with ⟨hq1, _⟩
          rw [keysOf_append] at hk't
          rcases List.mem_append.1 hk't with h1 | h1
          · exact hq1 (he ▸ h1)
          · simp [keysOf] at h1
            exact hne h1
        rw [List.cons_append]
        simp [jsGet, hq, h]
    · rw [if_neg hlen] at h
      exact h
  cases hl : jsGet k' l with
  | some u =>
    rw [jsGet_append_of_some _ hl] at h2
    exact h2
  | none =>
    rw [jsGet_append_of_none _ hl] at h2
    have hkk : ¬ (k = k') := fun hkk => hne hkk.symm
    simp [jsGet, hkk] at h2

/-- `set` of one key only removes or keeps other keys: any binding present
afterwards for a different key was present before. -/
theorem jsGet_set_ne_of_some {c : LruCache V} {k k' : String} {v w : V}
    (hnd : (keysOf c.entries).Nodup) (hne : k' ≠ k)
    (h : jsGet k' (c.set k v).entries = some w) :
    jsGet k' c.entries = some w := by
  have h0 : jsGet k' (setSteps c.maxSize k v c.entries) = some w := h
  by_cases hmem : k ∈ keysOf c.entries
  · rw [setSteps_of_mem hnd hmem] at h0
    have hlen : (jsDelete k c.entries ++ [(k, v)]).length =
        (jsDelete k c.entries).length + 1 := by simp
    rw [← hlen] at h0
    have := jsGet_if_tail_aux c.maxSize (keysOf_jsDelete_nodup hnd)
      (not_mem_keysOf_jsDelete hnd) hne h0
    rw [jsGet_jsDelete_ne hne] at this
    exact this
  · rw [setSteps_of_not_mem hmem] at h0
    have hlen : (c.entries ++ [(k, v)]).length = c.entries.length + 1 := by simp
    rw [← hlen] at h0
    exact jsGet_if_tail_aux c.maxSize hnd hmem hne h0

/-- `set` preserves key distinctness of the backing map. -/
theorem nodup_set {c : LruCache V} (hnd : (keysOf c.entries).Nodup)
    (k : String) (v : V) : (keysOf (c.set k v).entries).Nodup := by
  have happ : ∀ l : JsMap V, (keysOf l).Nodup → k ∉ keysOf l →
      (keysOf (l ++ [(k, v)])).Nodup := by
    intro l hl hkl
    rw [keysOf_append, List.nodup_append]
    refine ⟨hl, by simp, ?_⟩
    intro a ha hb
    simp [keysOf] at hb
    subst hb
    exact hkl ha
  have htail : ∀ l : JsMap V, (keysOf l).Nodup → (keysOf l.tail).Nodup := by
    intro l hl
    exact List.Nodup.sublist (List.Sublist.map Prod.fst (List.tail_sublist l)) hl
  show (keysOf (setSteps c.maxSize k v c.entries)).Nodup
  by_cases hmem : k ∈ keysOf c.entries
  · rw [setSteps_of_mem hnd hmem]
    have h1 := happ _ (keysOf_jsDelete_nodup hnd) (not_mem_keysOf_jsDelete hnd)
    by_cases hlen : (jsDelete k c.entries).length + 1 > c.maxSize
    · rw [if_pos hlen]
      exact htail _ h1
    · rw [if_neg hlen]
      exact h1
  · rw [setSteps_of_not_mem hmem]
    have h1 := happ _ hnd hmem
    by_cases hlen : c.entries.length + 1 > c.maxSize
    · rw [if_pos hlen]
      exact htail _ h1
    · rw [if_neg hlen]
      exact h1

end LruCache

/-- One client-visible cache operation. -/
inductive CacheOp (V : Type u) where
  | get (key : String)
  | set (key : String) (value : V)
  | has (key : String)
  | clear

namespace CacheOp

/-- Whether the operation touches (reads or writes) the given key in the
sense of the LRU recency policy: `get` and `set` touch their key, `has` and
`clear` touch nothing. -/
def touches : CacheOp V → String → Bool
  | .get k, key => k == key
  | .set k _, key => k == key
  | .has _, _ => false
  | .clear, _ => false

/-- State transition of one operation.  `get` and `set` are the source
transitions; `has` only calls `Map.prototype.has`, a pure read, so the
state is unchanged. -/
def apply : CacheOp V → LruCache V → LruCache V
  | .get k, c => (c.get k).2
  | .set k v, c => c.set k v
  | .has _, c => c
  | .clear, c => c.clear

end CacheOp

/-- Run a list of operations from the left on a starting cache. -/
def runOps (ops : List (CacheOp V)) (c : LruCache V) : LruCache V :=
  ops.foldl (fun s op => op.apply s) c

@[simp] theorem runOps_nil (c : LruCache V) : runOps [] c = c := rfl

theorem runOps_append (l₁ l₂ : List (CacheOp V)) (c : LruCache V) :
    runOps (l₁ ++ l₂) c = runOps l₂ (runOps l₁ c) :=
  List.foldl_append _ _ l₁ l₂

theorem runOps_snoc (tr : List (CacheOp V)) (op : CacheOp V) (c : LruCache V) :
    runOps (tr ++ [op]) c = op.apply (runOps tr c) := by
  rw [runOps_append]
  rfl

/-- How many operations ago (0 = the very last one) the key was last touched
by a `get` or `set`; equals the trace length when it was never touched. -/
def sinceTouch (tr : List (CacheOp V)) (k : String) : Nat :=
  tr.reverse.findIdx (fun op => op.touches k)

theorem sinceTouch_snoc_touch {op : CacheOp V} {k : String} (tr : List (CacheOp V))
    (h : op.touches k = true) : sinceTouch (tr ++ [op]) k = 0 := by
  simp [sinceTouch, List.findIdx_cons, h]

theorem sinceTouch_snoc_untouch {op : CacheOp V} {k : String} (tr : List (CacheOp V))
    (h : op.touches k = false) :
    sinceTouch (tr ++ [op]) k = sinceTouch tr k + 1 := by
  simp [sinceTouch, List.findIdx_cons, h]

/-- Soundness of the implicit recency queue: the backing map has distinct
keys, listed from least recently touched (head) to most recently touched. -/
def RecencyInv (tr : List (CacheOp V)) (l : JsMap V) : Prop :=
  (keysOf l).Nodup ∧
  l.Pairwise (fun p q => sinceTouch tr q.1 < sinceTouch tr p.1)

theorem pairwise_snoc_untouched {tr : List (CacheOp V)} {op : CacheOp V}
    {l : JsMap V} (h : ∀ p ∈ l, op.touches p.1 = false)
    (hp : l.Pairwise (fun p q => sinceTouch tr q.1 < sinceTouch tr p.1)) :
    l.Pairwise (fun p q =>
      sinceTouch (tr ++ [op]) q.1 < sinceTouch (tr ++ [op]) p.1) := by
  refine List.Pairwise.imp_of_mem ?_ hp
  intro p q hpm hqm hlt
  rw [sinceTouch_snoc_untouch tr (h p hpm), sinceTouch_snoc_untouch tr (h q hqm)]
  omega

theorem nodup_keys_append_singleton {l : JsMap V} {k : String}
    (hl : (keysOf l).Nodup) (hk : k ∉ keysOf l) (v : V) :
    (keysOf (l ++ [(k, v)])).Nodup := by
  rw [keysOf_append, List.nodup_append]
  refine ⟨hl, by simp, ?_⟩
  intro a ha hb
  simp [keysOf] at hb
  subst hb
  exact hk ha

theorem recencyInv_append_touched {tr : List (CacheOp V)} {op : CacheOp V}
    {l : JsMap V} {k : String} (v : V)
    (hnd : (keysOf l).Nodup)
    (hpw : l.Pairwise (fun p q => sinceTouch tr q.1 < sinceTouch tr p.1))
    (hk : k ∉ keysOf l) (ht : op.touches k = true)
    (hunt : ∀ p ∈ l, op.touches p.1 = false) :
    RecencyInv (tr ++ [op]) (l ++ [(k, v)]) := by
  refine ⟨nodup_keys_append_singleton hnd hk v, ?_⟩
  rw [List.pairwise_append]
  refine ⟨pairwise_snoc_untouched hunt hpw, by simp, ?_⟩
  intro p hpm q hqm
  have hq : q = (k, v) := by simpa using hqm
  subst hq
  rw [sinceTouch_snoc_touch tr ht, sinceTouch_snoc_untouch tr (hunt p hpm)]
  omega

theorem recencyInv_tail {tr : List (CacheOp V)} {l : JsMap V}
    (h : RecencyInv tr l) : RecencyInv tr l.tail :=
  ⟨List.Nodup.sublist (List.Sublist.map Prod.fst (List.tail_sublist l)) h.1,
   List.Pairwise.sublist (List.tail_sublist l) h.2⟩

theorem touches_ne_get {k key : String} (h : key ≠ k) :
    (CacheOp.get (V := V) k).touches key = false := by
  have h2 : ¬ (k = key) := fun he => h he.symm
  simp [CacheOp.touches, h2]

theorem touches_ne_set {k key : String} (v : V) (h : key ≠ k) :
    (CacheOp.set k v).touches key = false := by
  have h2 : ¬ (k = key) := fun he => h he.symm
  simp [CacheOp.touches, h2]

/-- Main LRU invariant: starting from an empty cache and running any trace of
operations, the backing map's keys are distinct and ordered by last touch,
least recently touched first. -/
theorem recency_invariant (N : Nat) (tr : List (CacheOp V)) :
    RecencyInv tr (runOps tr (LruCache.empty N)).entries := by
  induction tr using List.reverseRecOn with
  | nil => exact ⟨by simp [LruCache.empty], by simp [LruCache.empty]⟩
  | append_singleton tr op ih =>
    rw [runOps_snoc]
    obtain ⟨hnd, hpw⟩ := ih
    cases op with
    | has key =>
      exact ⟨hnd, pairwise_snoc_untouched (fun p _ => rfl) hpw⟩
    | clear =>
      exact ⟨by simp [CacheOp.apply, LruCache.clear], by
        simp [CacheOp.apply, LruCache.clear]⟩
    | get key =>
      show RecencyInv _ (((runOps tr (LruCache.empty N)).get key).2).entries
      cases hg : jsGet key (runOps tr (LruCache.empty N)).entries with
      | none =>
        rw [LruCache.get_of_jsGet_none hg]
        have hkey : key ∉ keysOf (runOps tr (LruCache.empty N)).entries :=
          (jsGet_eq_none_iff _ _).1 hg
        refine ⟨hnd, pairwise_snoc_untouched ?_ hpw⟩
        intro p hp
        exact touches_ne_get (fun he => hkey (he ▸ List.mem_map_of_mem Prod.fst hp))
      | some v =>
        rw [LruCache.get_of_jsGet_some hnd hg]
        apply recencyInv_append_touched v (keysOf_jsDelete_nodup hnd)
          (List.Pairwise.sublist (jsDelete_sublist key _) hpw)
          (not_mem_keysOf_jsDelete hnd) (by simp [CacheOp.touches])
        intro p hp
        apply touches_ne_get
        intro he
        apply not_mem_keysOf_jsDelete hnd (l := (runOps tr (LruCache.empty N)).entries)
        exact he ▸ List.mem_map_of_mem Prod.fst hp
    | set key v =>
      show RecencyInv _
        (LruCache.setSteps (runOps tr (LruCache.empty N)).maxSize key v
          (runOps tr (LruCache.empty N)).entries)
      have hstep : ∀ l : JsMap V, (keysOf l).Nodup →
          l.Pairwise (fun p q => sinceTouch tr q.1 < sinceTouch tr p.1) →
          key ∉ keysOf l → ∀ m : Nat,
          RecencyInv (tr ++ [CacheOp.set key v])
            (if l.length + 1 > m then (l ++ [(key, v)]).tail
             else l ++ [(key, v)]) := by
        intro l hl hplw hkl m
        have hbase : RecencyInv (tr ++ [CacheOp.set key v]) (l ++ [(key, v)]) := by
          apply recencyInv_append_touched v hl hplw hkl (by simp [CacheOp.touches])
          intro p hp
          exact touches_ne_set v
            (fun he => hkl (he ▸ List.mem_map_of_mem Prod.fst hp))
        by_cases hlen : l.length + 1 > m
        · rw [if_pos hlen]
          exact recencyInv_tail hbase
        · rw [if_neg hlen]
          exact hbase
      by_cases hmem : key ∈ keysOf (runOps tr (LruCache.empty N)).entries
      · rw [LruCache.setSteps_of_mem hnd hmem]
        exact hstep _ (keysOf_jsDelete_nodup hnd)
          (List.Pairwise.sublist (jsDelete_sublist key _) hpw)
          (not_mem_keysOf_jsDelete hnd) _
      · rw [LruCache.setSteps_of_not_mem hmem]
        exact hstep _ hnd hpw hmem _

theorem maxSize_apply (op : CacheOp V) (c : LruCache V) :
    (op.apply c).maxSize = c.maxSize := by
  cases op with
  | get k => exact LruCache.maxSize_get_snd c k
  | set k v => rfl
  | has k => rfl
  | clear => rfl

theorem maxSize_runOps (tr : List (CacheOp V)) (c : LruCache V) :
    (runOps tr c).maxSize = c.maxSize := by
  induction tr generalizing c with
  | nil => rfl
  | cons op rest ih =>
    show (runOps rest (op.apply c)).maxSize = c.maxSize
    rw [ih (op.apply c), maxSize_apply]

namespace LruCache

theorem length_setSteps_le {l : JsMap V} {m : Nat} (h : l.length ≤ m)
    (k : String) (v : V) : (setSteps m k v l).length ≤ m := by
  have he1 : (if jsHas k l then jsDelete k l else l).length ≤ l.length := by
    by_cases hh : jsHas k l = true
    · rw [if_pos hh, length_jsDelete_of_mem ((jsHas_eq_true_iff k l).1 hh)]
      omega
    · rw [if_neg hh]
  have he2 : (jsSet k v (if jsHas k l then jsDelete k l else l)).length ≤
      (if jsHas k l then jsDelete k l else l).length + 1 := by
    by_cases hm2 : k ∈ keysOf (if jsHas k l then jsDelete k l else l)
    · rw [length_jsSet_of_mem hm2]
      omega
    · rw [length_jsSet_of_not_mem hm2]
  show (if (jsSet k v (if jsHas k l then jsDelete k l else l)).length > m
      then evictOldest (jsSet k v (if jsHas k l then jsDelete k l else l))
      else jsSet k v (if jsHas k l then jsDelete k l else l)).length ≤ m
  by_cases hl : (jsSet k v (if jsHas k l then jsDelete k l else l)).length > m
  · rw [if_pos hl, evictOldest_eq_tail, List.length_tail]
    omega
  · rw [if_neg hl]
    omega

theorem length_set_le {c : LruCache V} (h : c.entries.length ≤ c.maxSize)
    (k : String) (v : V) : (c.set k v).entries.length ≤ c.maxSize :=
  length_setSteps_le h k v

theorem length_get_le {c : LruCache V} (h : c.entries.length ≤ c.maxSize)
    (k : String) : ((c.get k).2).entries.length ≤ c.maxSize := by
  cases hg : jsGet k c.entries with
  | none =>
    rw [get_of_jsGet_none hg]
    exact h
  | some v =>
    have hent : ((c.get k).2).entries = jsSet k v (jsDelete k c.entries) := by
      simp [get, hg]
    rw [hent]
    have hmem : k ∈ keysOf c.entries := mem_keysOf_of_jsGet_eq_some hg
    have h1 : (jsDelete k c.entries).length = c.entries.length - 1 :=
      length_jsDelete_of_mem hmem
    have hpos : 1 ≤ c.entries.length := by
      cases he : c.entries with
      | nil => rw [he] at hmem; simp at hmem
      | cons q t => simp [he]
    by_cases hm2 : k ∈ keysOf (jsDelete k c.entries)
    · rw [length_jsSet_of_mem hm2]
      omega
    · rw [length_jsSet_of_not_mem hm2]
      omega

theorem length_set_eq_of_full {c : LruCache V} (hk : k ∉ keysOf c.entries)
    (hfull : c.entries.length = c.maxSize) (v : V) :
    (c.set k v).entries.length = c.maxSize := by
  show (setSteps c.maxSize k v c.entries).length = c.maxSize
  rw [setSteps_of_not_mem hk, if_pos (by omega)]
  simp
  omega

theorem set_entries_nil_of_maxSize_zero {c : LruCache V} (hm : c.maxSize = 0)
    (h : c.entries.length ≤ c.maxSize) (k : String) (v : V) :
    (c.set k v).entries = [] := by
  have hent : c.entries = [] := by
    rw [hm] at h
    exact List.eq_nil_of_length_eq_zero (by omega)
  show setSteps c.maxSize k v c.entries = []
  rw [hm, hent]
  simp [setSteps, jsHas, jsGet, jsSet, evictOldest, jsDelete]

end LruCache

theorem runOps_all_has {hs : List (CacheOp V)} (c : LruCache V)
    (h : ∀ op ∈ hs, ∃ k, op = CacheOp.has k) : runOps hs c = c := by
  induction hs generalizing c with
  | nil => rfl
  | cons op rest ih =>
    obtain ⟨k, hk⟩ := h op (by simp)
    subst hk
    show runOps rest ((CacheOp.has k).apply c) = c
    exact ih c (fun op hop => h op (by simp [hop]))

theorem length_runOps_le (N : Nat) (tr : List (CacheOp V)) :
    (runOps tr (LruCache.empty N)).entries.length ≤ N := by
  induction tr using List.reverseRecOn with
  | nil => simp [LruCache.empty]
  | append_singleton tr op ih =>
    rw [runOps_snoc]
    have hms : (runOps tr (LruCache.empty N)).maxSize = N :=
      maxSize_runOps tr (LruCache.empty N)
    cases op with
    | get k =>
      have := LruCache.length_get_le (c := runOps tr (LruCache.empty N))
        (by rw [hms]; exact ih) k
      rw [hms] at this
      exact this
    | set k v =>
      have := LruCache.length_set_le (c := runOps tr (LruCache.empty N))
        (by rw [hms]; exact ih) k v
      rw [hms] at this
      exact this
    | has k => exact ih
    | clear => simp [CacheOp.apply, LruCache.clear]

theorem insert_distinct_drop (N : Nat) (ps : JsMap V) (hnd : (keysOf ps).Nodup) :
    (runOps (ps.map (fun p => CacheOp.set p.1 p.2)) (LruCache.empty N)).entries
      = ps.drop (ps.length - N) := by
  induction ps using List.reverseRecOn with
  | nil => simp [LruCache.empty]
  | append_singleton ps p ih =>
    have hnd1 : (keysOf ps).Nodup := by
      rcases List.nodup_append.1 (by rw [← keysOf_append]; exact hnd) with ⟨h1, _, _⟩
      exact h1
    have hnotmem : p.1 ∉ keysOf ps := by
      rcases List.nodup_append.1 (by rw [← keysOf_append]; exact hnd) with ⟨_, _, h3⟩
      intro hmem
      exact h3 hmem (by simp [keysOf])
    have ihe := ih hnd1
    rw [List.map_append, List.map_singleton, runOps_snoc]
    show (LruCache.set _ p.1 p.2).entries = _
    have hms : (runOps (ps.map (fun p => CacheOp.set p.1 p.2))
        (LruCache.empty N)).maxSize = N := maxSize_runOps _ _
    have hstep : (LruCache.set (runOps (ps.map (fun p => CacheOp.set p.1 p.2))
        (LruCache.empty N)) p.1 p.2).entries
        = LruCache.setSteps N p.1 p.2 (ps.drop (ps.length - N)) := by
      show LruCache.setSteps _ p.1 p.2 _ = _
      rw [hms, ihe]
    rw [hstep]
    have hkdrop : p.1 ∉ keysOf (ps.drop (ps.length - N)) := by
      intro hmem
      apply hnotmem
      have hkd : keysOf (ps.drop (ps.length - N))
          = (keysOf ps).drop (ps.length - N) := by
        simp [keysOf, List.map_drop]
      rw [hkd] at hmem
      exact List.mem_of_mem_drop hmem
    rw [LruCache.setSteps_of_not_mem hkdrop]
    have hdlen : (ps.drop (ps.length - N)).length = ps.length - (ps.length - N) :=
      List.length_drop _ _
    have happ : ps.drop (ps.length - N) ++ [p] = (ps ++ [p]).drop (ps.length - N) :=
      (List.drop_append_of_le_length (by omega)).symm
    by_cases hge : N ≤ ps.length
    · rw [if_pos (by omega), happ, List.tail_drop]
      congr 1
      simp
      omega
    · rw [if_neg (by omega), happ]
      congr 1
      simp
      omega

/-- C1: running any trace of operations from an empty cache of capacity `N`,
a `set` of a fresh key on a full cache retains every other entry plus the new
one and evicts exactly the head entry, which is the least recently touched
key (every retained key was touched, by `get` or `set`, more recently);
`get` on a present key promotes it to the most-recently-used end; the
concrete capacity-2 trace set(A), set(B), get(A), set(C) evicts B and leaves
exactly A and C; and inserting any sequence of distinct keys leaves exactly
the `N` most recently inserted ones, in recency order. -/
theorem c1_evicts_least_recently_touched :
    (∀ (V : Type u) (N : Nat) (tr : List (CacheOp V)) (k : String) (v : V)
        (e : String × V) (rest : JsMap V),
      (runOps tr (LruCache.empty N)).entries = e :: rest →
      (e :: rest).length = N →
      k ∉ keysOf (e :: rest) →
      ((runOps tr (LruCache.empty N)).set k v).entries = rest ++ [(k, v)] ∧
      ∀ p ∈ rest, sinceTouch tr p.1 < sinceTouch tr e.1) ∧
    (∀ (V : Type u) (c : LruCache V) (k : String) (v : V),
      (keysOf c.entries).Nodup → jsGet k c.entries = some v →
      c.get k = (some v, { c with entries := jsDelete k c.entries ++ [(k, v)] })) ∧
    ((runOps [CacheOp.set "A" (0 : Nat), CacheOp.set "B" 1, CacheOp.get "A",
        CacheOp.set "C" 2] (LruCache.empty 2)).entries = [("A", 0), ("C", 2)]) ∧
    (∀ (V : Type u) (N : Nat) (ps : JsMap V),
      (keysOf ps).Nodup →
      (runOps (ps.map (fun p => CacheOp.set p.1 p.2)) (LruCache.empty N)).entries
        = ps.drop (ps.length - N)) := by
  refine ⟨?_, ?_, by decide, ?_⟩
  · intro V N tr k v e rest hent hlen hk
    have hinv := recency_invariant N tr
    rw [hent] at hinv
    constructor
    · have hms : (runOps tr (LruCache.empty N)).maxSize = N := maxSize_runOps _ _
      have hstep : ((runOps tr (LruCache.empty N)).set k v).entries
          = LruCache.setSteps N k v (e :: rest) := by
        show LruCache.setSteps _ k v _ = _
        rw [hms, hent]
      rw [hstep, LruCache.setSteps_of_not_mem hk, if_pos (by rw [hlen]; omega)]
      simp
    · intro p hp
      exact (List.pairwise_cons.1 hinv.2).1 p hp
  · intro V c k v hnd hg
    exact LruCache.get_of_jsGet_some hnd hg
  · intro V N ps hnd
    exact insert_distinct_drop N ps hnd

/-- Witness for C1 at capacity 2 and trace set(A), set(B): inserting fresh
key C evicts the head A (set earlier than B) and keeps B. -/
theorem c1_evicts_least_recently_touched_witness :
    (((runOps [CacheOp.set "A" (0 : Nat), CacheOp.set "B" 1]
        (LruCache.empty 2)).set "C" 2).entries = [("B", 1), ("C", 2)] ∧
      ∀ p ∈ [(("B" : String), (1 : Nat))],
        sinceTouch [CacheOp.set "A" (0 : Nat), CacheOp.set "B" 1] p.1
          < sinceTouch [CacheOp.set "A" (0 : Nat), CacheOp.set "B" 1]
              (("A", (0 : Nat)) : String × Nat).1) ∧
    ((⟨[("A", (0 : Nat)), ("B", 1)], 2⟩ : LruCache Nat).get "A"
      = (some 0, ⟨[("B", 1), ("A", 0)], 2⟩)) ∧
    ((runOps (([("X", (7 : Nat)), ("Y", 8), ("Z", 9)] : JsMap Nat).map
        (fun p => CacheOp.set p.1 p.2)) (LruCache.empty 2)).entries
      = [("Y", 8), ("Z", 9)]) := by
  refine ⟨?_, ?_, ?_⟩
  · exact c1_evicts_least_recently_touched.1 Nat 2
      [CacheOp.set "A" 0, CacheOp.set "B" 1] "C" 2 ("A", 0) [("B", 1)]
      (by decide) (by decide) (by decide)
  · have h := c1_evicts_least_recently_touched.2.1 Nat
      (⟨[("A", (0 : Nat)), ("B", 1)], 2⟩ : LruCache Nat) "A" 0
      (by decide) (by decide)
    rw [h]
    decide
  · exact c1_evicts_least_recently_touched.2.2.2 Nat 2
      [("X", 7), ("Y", 8), ("Z", 9)] (by decide)

/-- C4: the size never exceeds the capacity: any trace from an empty cache
of capacity `N` keeps size at most `N`; `set` preserves the size bound; a
`set` of a fresh key on a full cache evicts exactly one entry, restoring the
size to exactly the capacity; and with capacity 0 every `set` leaves the
cache empty. -/
theorem c4_size_never_exceeds_capacity :
    (∀ (V : Type u) (N : Nat) (tr : List (CacheOp V)),
      (runOps tr (LruCache.empty N)).entries.length ≤ N) ∧
    (∀ (V : Type u) (c : LruCache V) (k : String) (v : V),
      c.entries.length ≤ c.maxSize → (c.set k v).entries.length ≤ c.maxSize) ∧
    (∀ (V : Type u) (c : LruCache V) (k : String) (v : V),
      k ∉ keysOf c.entries → c.entries.length = c.maxSize →
      (c.set k v).entries.length = c.maxSize) ∧
    (∀ (V : Type u) (c : LruCache V) (k : String) (v : V),
      c.maxSize = 0 → c.entries.length ≤ c.maxSize → (c.set k v).entries = []) := by
  refine ⟨?_, ?_, ?_, ?_⟩
  · intro V N tr
    exact length_runOps_le N tr
  · intro V c k v h
    exact LruCache.length_set_le h k v
  · intro V c k v hk hfull
    exact LruCache.length_set_eq_of_full hk hfull v
  · intro V c k v hm h
    exact LruCache.set_entries_nil_of_maxSize_zero hm h k v

/-- Witness for C4: concrete full cache of capacity 1 and a capacity-0 cache. -/
theorem c4_size_never_exceeds_capacity_witness :
    ((runOps [CacheOp.set "A" (0 : Nat), CacheOp.set "B" 1]
        (LruCache.empty 1)).entries.length ≤ 1) ∧
    (((⟨[("A", (5 : Nat))], 1⟩ : LruCache Nat).set "B" 6).entries.length ≤ 1) ∧
    (((⟨[("A", (5 : Nat))], 1⟩ : LruCache Nat).set "B" 6).entries.length = 1) ∧
    (((⟨[], 0⟩ : LruCache Nat).set "A" 5).entries = []) := by
  refine ⟨?_, ?_, ?_, ?_⟩
  · exact c4_size_never_exceeds_capacity.1 Nat 1 _
  · exact c4_size_never_exceeds_capacity.2.1 Nat
      (⟨[("A", 5)], 1⟩ : LruCache Nat) "B" 6 (by decide)
  · exact c4_size_never_exceeds_capacity.2.2.1 Nat
      (⟨[("A", 5)], 1⟩ : LruCache Nat) "B" 6 (by decide) (by decide)
  · exact c4_size_never_exceeds_capacity.2.2.2 Nat
      (⟨[], 0⟩ : LruCache Nat) "A" 5 (by decide) (by decide)

/-- C5: `has` never changes the cache state, so interleaving any number of
`has` calls anywhere in a trace leaves the final state (and hence every
later eviction decision) unchanged; concretely, with capacity 1, set(A)
followed by any number of has(A) and then set(B) still evicts A. -/
theorem c5_has_never_changes_state :
    (∀ (V : Type u) (l₁ l₂ hs : List (CacheOp V)) (c : LruCache V),
      (∀ op ∈ hs, ∃ k, op = CacheOp.has k) →
      runOps (l₁ ++ hs ++ l₂) c = runOps (l₁ ++ l₂) c) ∧
    (∀ n : Nat,
      (runOps ([CacheOp.set "A" (0 : Nat)] ++ List.replicate n (CacheOp.has "A")
        ++ [CacheOp.set "B" 1]) (LruCache.empty 1)).entries = [("B", 1)]) := by
  constructor
  · intro V l₁ l₂ hs c hhs
    rw [runOps_append, runOps_append, runOps_append, runOps_all_has _ hhs,
      ← runOps_append]
  · intro n
    rw [runOps_append, runOps_append,
      runOps_all_has _ (fun op hop => ⟨"A", List.eq_of_mem_replicate hop⟩)]
    decide

/-- Witness for C5 with three interleaved has(A) calls. -/
theorem c5_has_never_changes_state_witness :
    runOps ([CacheOp.set "A" (0 : Nat)]
        ++ List.replicate 3 (CacheOp.has "A")
        ++ [CacheOp.set "B" 1]) (LruCache.empty 1)
      = runOps ([CacheOp.set "A" (0 : Nat)] ++ [CacheOp.set "B" 1])
          (LruCache.empty 1) := by
  exact c5_has_never_changes_state.1 Nat [CacheOp.set "A" 0]
    [CacheOp.set "B" 1] (List.replicate 3 (CacheOp.has "A"))
    (LruCache.empty 1)
    (fun op hop => ⟨"A", List.eq_of_mem_replicate hop⟩)

/-- `RateLimitEntry` of `src/middleware/rate-limiter.ts`. -/
structure RateLimitEntry where
  count : Nat
  resetAt : Nat
  deriving DecidableEq

/-- `RateLimitResult`.  `remaining` is an integer because the source computes
`this.maxRequests - 1` and `this.maxRequests - entry.count` as JavaScript
numbers, which go negative when `maxRequests = 0`. -/
structure RateLimitResult where
  isLimited : Bool
  remaining : Int
  resetAt : Nat
  deriving DecidableEq

/-- `RateLimiterStore`: per-key fixed-window counters.  Timestamps are
milliseconds; each `Date.now()` read is passed in explicitly. -/
structure RateLimiterStore where
  entries : JsMap RateLimitEntry
  windowMs : Nat
  maxRequests : Nat
  deriving DecidableEq

namespace RateLimiterStore

/-- Fresh-window branch of `check`: store `count = 1`,
`resetAt = now + windowMs` and report `maxRequests - 1` remaining. -/
def freshWindow (s : RateLimiterStore) (key : String) (now : Nat) :
    RateLimitResult × RateLimiterStore :=
  ({ isLimited := false, remaining := (s.maxRequests : Int) - 1,
     resetAt := now + s.windowMs },
   { s with entries := jsSet key ⟨1, now + s.windowMs⟩ s.entries })

/-- `check(key)` at time `now`.  When the key is absent or its window has
expired (`now >= entry.resetAt`) a fresh window starts.  Otherwise the count
is incremented in place — also on the denied path, which keeps `resetAt`
unchanged and reports `isLimited = true, remaining = 0`. -/
def check (s : RateLimiterStore) (key : String) (now : Nat) :
    RateLimitResult × RateLimiterStore :=
  match jsGet key s.entries with
  | none => freshWindow s key now
  | some entry =>
    if entry.resetAt ≤ now then freshWindow s key now
    else
      let s' : RateLimiterStore :=
        { s with entries := jsSet key ⟨entry.count + 1, entry.resetAt⟩ s.entries }
      if entry.count + 1 > s.maxRequests then
        ({ isLimited := true, remaining := 0, resetAt := entry.resetAt }, s')
      else
        ({ isLimited := false,
           remaining := (s.maxRequests : Int) - ((entry.count : Int) + 1),
           resetAt := entry.resetAt }, s')

theorem windowMs_check (s : RateLimiterStore) (key : String) (now : Nat) :
    ((s.check key now).2).windowMs = s.windowMs := by
  cases hg : jsGet key s.entries with
  | none => simp [check, hg, freshWindow]
  | some e =>
    by_cases hr : e.resetAt ≤ now
    · simp [check, hg, hr, freshWindow]
    · by_cases hc : e.count + 1 > s.maxRequests <;> simp [check, hg, hr, hc]

theorem maxRequests_check (s : RateLimiterStore) (key : String) (now : Nat) :
    ((s.check key now).2).maxRequests = s.maxRequests := by
  cases hg : jsGet key s.entries with
  | none => simp [check, hg, freshWindow]
  | some e =>
    by_cases hr : e.resetAt ≤ now
    · simp [check, hg, hr, freshWindow]
    · by_cases hc : e.count + 1 > s.maxRequests <;> simp [check, hg, hr, hc]

/-- When the result is limited, the window had not yet expired at the
check's own clock read: `now < resetAt`. -/
theorem lt_resetAt_of_isLimited {s : RateLimiterStore} {key : String} {now : Nat}
    (h : (s.check key now).1.isLimited = true) :
    now < (s.check key now).1.resetAt := by
  cases hg : jsGet key s.entries with
  | none => simp [check, hg, freshWindow] at h
  | some e =>
    by_cases hr : e.resetAt ≤ now
    · simp [check, hg, hr, freshWindow] at h
    · by_cases hc : e.count + 1 > s.maxRequests
      · simp [check, hg, hr, hc]
        omega
      · simp [check, hg, hr, hc] at h

/-- State after `n` successive `check` calls for `key`, the `i`th at
time `t i`. -/
def checkRun (s : RateLimiterStore) (key : String) (t : Nat → Nat) :
    Nat → RateLimiterStore
  | 0 => s
  | n + 1 => ((checkRun s key t n).check key (t n)).2

/-- Result of the call with 0-based index `n` in that sequence. -/
def checkRes (s : RateLimiterStore) (key : String) (t : Nat → Nat) (n : Nat) :
    RateLimitResult :=
  ((checkRun s key t n).check key (t n)).1

theorem windowMs_checkRun (s : RateLimiterStore) (key : String) (t : Nat → Nat)
    (n : Nat) : (checkRun s key t n).windowMs = s.windowMs := by
  induction n with
  | zero => rfl
  | succ n ih => rw [checkRun, windowMs_check, ih]

theorem maxRequests_checkRun (s : RateLimiterStore) (key : String) (t : Nat → Nat)
    (n : Nat) : (checkRun s key t n).maxRequests = s.maxRequests := by
  induction n with
  | zero => rfl
  | succ n ih => rw [checkRun, maxRequests_check, ih]

/-- Window-sequence invariant: starting from a state where the key is
absent or expired at `t 0`, after `n ≥ 1` calls all made strictly before
`t 0 + windowMs` the stored entry is exactly `{count := n, resetAt := t 0 +
windowMs}`. -/
theorem checkRun_entry {s : RateLimiterStore} {key : String} {t : Nat → Nat}
    (hfresh : ∀ e, jsGet key s.entries = some e → e.resetAt ≤ t 0)
    (hin : ∀ i, t i < t 0 + s.windowMs) :
    ∀ n, 1 ≤ n → jsGet key (checkRun s key t n).entries
      = some ⟨n, t 0 + s.windowMs⟩ := by
  intro n
  induction n with
  | zero => intro h; omega
  | succ n ih =>
    intro _
    cases Nat.eq_zero_or_pos n with
    | inl h0 =>
      subst h0
      show jsGet key ((s.check key (t 0)).2).entries = _
      cases hg : jsGet key s.entries with
      | none => simp [check, hg, freshWindow, jsGet_jsSet_self]
      | some e =>
        have hr : e.resetAt ≤ t 0 := hfresh e hg
        simp [check, hg, hr, freshWindow, jsGet_jsSet_self]
    | inr hpos =>
      have hc := ih hpos
      show jsGet key (((checkRun s key t n).check key (t n)).2).entries = _
      have hW := windowMs_checkRun s key t n
      have hr : ¬ ((⟨n, t 0 + s.windowMs⟩ : RateLimitEntry).resetAt ≤ t n) := by
        have := hin n
        simp
        omega
      by_cases hcc : n + 1 > (checkRun s key t n).maxRequests
      · simp [check, hc, hr, hcc, jsGet_jsSet_self]
      · simp [check, hc, hr, hcc, jsGet_jsSet_self]

end RateLimiterStore

/-- C2: fixed-window counting.  For window `W ≥ 1` and threshold `M ≥ 1`,
starting from a state where the key is absent or expired at the first call
time, with every call strictly before the new window's `resetAt = t 0 + W`:
call 1 opens a fresh window and returns not-limited with `remaining = M - 1`;
call `i+1` for `1 ≤ i`, `i + 1 ≤ M` returns not-limited with
`remaining = M - (i+1)` (strictly decreasing, reaching 0 at call `M`); and
every call from the `(M+1)`st on returns limited with `remaining = 0` and
`resetAt` still `t 0 + W` — a denied call neither starts a new window nor
resets the count. -/
theorem c2_window_counting (s : RateLimiterStore) (key : String) (t : Nat → Nat)
    (hM : 1 ≤ s.maxRequests) (hW : 1 ≤ s.windowMs)
    (hfresh : ∀ e, jsGet key s.entries = some e → e.resetAt ≤ t 0)
    (hin : ∀ i, t i < t 0 + s.windowMs) :
    (RateLimiterStore.checkRes s key t 0
      = ⟨false, (s.maxRequests : Int) - 1, t 0 + s.windowMs⟩) ∧
    (∀ i, 1 ≤ i → i + 1 ≤ s.maxRequests →
      RateLimiterStore.checkRes s key t i
        = ⟨false, (s.maxRequests : Int) - ((i : Int) + 1), t 0 + s.windowMs⟩) ∧
    (∀ i, 1 ≤ i → i + 1 ≤ s.maxRequests →
      (RateLimiterStore.checkRes s key t i).remaining
        < (RateLimiterStore.checkRes s key t (i - 1)).remaining) ∧
    (∀ i, s.maxRequests ≤ i →
      RateLimiterStore.checkRes s key t i = ⟨true, 0, t 0 + s.windowMs⟩) := by
  have hres0 : RateLimiterStore.checkRes s key t 0
      = ⟨false, (s.maxRequests : Int) - 1, t 0 + s.windowMs⟩ := by
    show ((s.check key (t 0)).1) = _
    cases hg : jsGet key s.entries with
    | none => simp [RateLimiterStore.check, hg, RateLimiterStore.freshWindow]
    | some e =>
      have hr : e.resetAt ≤ t 0 := hfresh e hg
      simp [RateLimiterStore.check, hg, hr, RateLimiterStore.freshWindow]
  have hresi : ∀ i, 1 ≤ i →
      RateLimiterStore.checkRes s key t i
        = if i + 1 > s.maxRequests
          then ⟨true, 0, t 0 + s.windowMs⟩
          else ⟨false, (s.maxRequests : Int) - ((i : Int) + 1), t 0 + s.windowMs⟩ := by
    intro i hi
    have hc := RateLimiterStore.checkRun_entry hfresh hin i hi
    have hM2 := RateLimiterStore.maxRequests_checkRun s key t i
    show ((RateLimiterStore.checkRun s key t i).check key (t i)).1 = _
    have hr : ¬ ((⟨i, t 0 + s.windowMs⟩ : RateLimitEntry).resetAt ≤ t i) := by
      have := hin i
      simp
      omega
    by_cases hcc : i + 1 > (RateLimiterStore.checkRun s key t i).maxRequests
    · rw [if_pos (by omega)]
      simp [RateLimiterStore.check, hc, hr, hcc]
    · rw [if_neg (by omega)]
      have hccs : ¬ (s.maxRequests < i + 1) := by omega
      simp [RateLimiterStore.check, hc, hr, hcc, hM2, hccs]
  refine ⟨hres0, ?_, ?_, ?_⟩
  · intro i hi hile
    rw [hresi i hi, if_neg (by omega)]
  · intro i hi hile
    rw [hresi i hi, if_neg (by omega)]
    cases Nat.eq_or_lt_of_le hi with
    | inl h1 =>
      rw [← h1, hres0]
      show (s.maxRequests : Int) - (((1 : Nat) : Int) + 1)
        < (s.maxRequests : Int) - 1
      omega
    | inr h1 =>
      have hi1 : 1 ≤ i - 1 := by omega
      rw [hresi (i - 1) hi1, if_neg (by omega)]
      show (s.maxRequests : Int) - ((i : Int) + 1)
        < (s.maxRequests : Int) - (((i - 1 : Nat) : Int) + 1)
      omega
  · intro i hi
    rw [hresi i (by omega), if_pos (by omega)]

/-- Witness for C2 with threshold 2, window 100, all calls at time 0:
results are false/1, false/0, true/0. -/
theorem c2_window_counting_witness :
    (RateLimiterStore.checkRes ⟨[], 100, 2⟩ "k" (fun _ => 0) 0
      = ⟨false, 1, 100⟩) ∧
    (RateLimiterStore.checkRes ⟨[], 100, 2⟩ "k" (fun _ => 0) 1
      = ⟨false, 0, 100⟩) ∧
    (RateLimiterStore.checkRes ⟨[], 100, 2⟩ "k" (fun _ => 0) 2
      = ⟨true, 0, 100⟩) := by
  have h := c2_window_counting ⟨[], 100, 2⟩ "k" (fun _ => 0)
    (by decide) (by decide)
    (fun e he => by simp [jsGet] at he)
    (fun i => by norm_num)
  refine ⟨?_, ?_, ?_⟩
  · exact h.1
  · have := h.2.1 1 (by decide) (by decide)
    rw [this]
    norm_num
  · exact h.2.2.2 2 (by decide)

/-- C10: a fresh-window `check` (key absent or expired) is never denied and
returns `remaining = maxRequests - 1`, which is `-1` when the configured
threshold is 0 — so `remaining ≥ 0` does not hold for every configuration. -/
theorem c10_fresh_window_never_denied :
    (∀ (s : RateLimiterStore) (key : String) (now : Nat),
      (jsGet key s.entries = none ∨
        ∃ e, jsGet key s.entries = some e ∧ e.resetAt ≤ now) →
      (s.check key now).1
        = ⟨false, (s.maxRequests : Int) - 1, now + s.windowMs⟩) ∧
    (∀ (s : RateLimiterStore) (key : String) (now : Nat),
      s.maxRequests = 0 →
      (jsGet key s.entries = none ∨
        ∃ e, jsGet key s.entries = some e ∧ e.resetAt ≤ now) →
      (s.check key now).1.isLimited = false ∧
      (s.check key now).1.remaining = -1 ∧
      (s.check key now).1.remaining < 0) := by
  have hmain : ∀ (s : RateLimiterStore) (key : String) (now : Nat),
      (jsGet key s.entries = none ∨
        ∃ e, jsGet key s.entries = some e ∧ e.resetAt ≤ now) →
      (s.check key now).1
        = ⟨false, (s.maxRequests : Int) - 1, now + s.windowMs⟩ := by
    intro s key now hcase
    rcases hcase with hg | ⟨e, hg, hr⟩
    · simp [RateLimiterStore.check, hg, RateLimiterStore.freshWindow]
    · simp [RateLimiterStore.check, hg, hr, RateLimiterStore.freshWindow]
  refine ⟨hmain, ?_⟩
  intro s key now hm hcase
  rw [hmain s key now hcase, hm]
  refine ⟨rfl, by norm_num, by norm_num⟩

/-- Witness for C10 with threshold 0: the fresh call is allowed and reports
`remaining = -1`. -/
theorem c10_fresh_window_never_denied_witness :
    ((⟨[], 100, 0⟩ : RateLimiterStore).check "k" 5).1.isLimited = false ∧
    ((⟨[], 100, 0⟩ : RateLimiterStore).check "k" 5).1.remaining = -1 ∧
    ((⟨[], 100, 0⟩ : RateLimiterStore).check "k" 5).1.remaining < 0 := by
  exact c10_fresh_window_never_denied.2 ⟨[], 100, 0⟩ "k" 5 (by decide)
    (Or.inl (by decide))

/-- `RateLimiterOptions` of `createRateLimiter`. -/
structure RateLimiterOptions where
  windowMs : Nat
  maxRequests : Nat
  message : String
  code : String
  deriving DecidableEq

/-- `Math.ceil(a / 1000)` for an integer `a` (milliseconds to seconds):
the ceiling is the negated floor division of the negation. -/
def ceilDiv1000 (a : Int) : Int := -((-a).fdiv 1000)

/-- The JSON error envelope `{success, error: {message, code}}`. -/
structure ErrorBody where
  success : Bool
  message : String
  code : String
  deriving DecidableEq

/-- Observable effect of one middleware invocation on the response object:
headers set (in order), status code and JSON body if sent, and whether
`next()` was invoked. -/
structure MwResponse where
  headers : List (String × Int)
  status : Option Nat
  body : Option ErrorBody
  nextCalled : Bool
  deriving DecidableEq

/-- The middleware produced by `createRateLimiter`: keys by `req.ip` (or
`'unknown'` when absent), runs `store.check`, always sets the three
`X-RateLimit-*` headers, and on a limited result also sets `Retry-After`
and responds 429 with the configured message and code instead of calling
`next`.  The source reads `Date.now()` twice — once inside `check` (`now`)
and once when computing `Retry-After` (`nowAtHeader`) — so both reads are
explicit parameters. -/
def rateLimiterMiddleware (opts : RateLimiterOptions) (store : RateLimiterStore)
    (ip : Option String) (now nowAtHeader : Nat) : MwResponse × RateLimiterStore :=
  let key := ip.getD "unknown"
  let rs := store.check key now
  let baseHeaders : List (String × Int) :=
    [("X-RateLimit-Limit", (opts.maxRequests : Int)),
     ("X-RateLimit-Remaining", rs.1.remaining),
     ("X-RateLimit-Reset", ceilDiv1000 (rs.1.resetAt : Int))]
  if rs.1.isLimited then
    ({ headers := baseHeaders
        ++ [("Retry-After",
              ceilDiv1000 ((rs.1.resetAt : Int) - (nowAtHeader : Int)))],
       status := some 429,
       body := some ⟨false, opts.message, opts.code⟩,
       nextCalled := false }, rs.2)
  else
    ({ headers := baseHeaders, status := none, body := none,
       nextCalled := true }, rs.2)

theorem ceilDiv1000_nonneg {a : Int} (h : 0 ≤ a) : 0 ≤ ceilDiv1000 a := by
  unfold ceilDiv1000
  rw [Int.fdiv_eq_ediv _ (by norm_num : (0 : Int) ≤ 1000)]
  have h1 : (-a) ≤ 0 := by omega
  have h2 : (-a) / 1000 ≤ 0 / 1000 :=
    Int.ediv_le_ediv (by norm_num) h1
  simp at h2
  omega

/-- C3 counterexample: a denied invocation whose second clock read happens
after `resetAt` sends a negative `Retry-After` header (-2 here), so the sent
value is not the claimed clamped-to-nonnegative quantity. -/
theorem c3_negative_retry_after_counterexample :
    (rateLimiterMiddleware ⟨60000, 1, "Too many requests", "RATE_LIMITED"⟩
        ⟨[("1.2.3.4", ⟨1, 1000⟩)], 60000, 1⟩ (some "1.2.3.4") 0 3000).1
      = ⟨[("X-RateLimit-Limit", 1), ("X-RateLimit-Remaining", 0),
          ("X-RateLimit-Reset", 1), ("Retry-After", -2)],
         some 429, some ⟨false, "Too many requests", "RATE_LIMITED"⟩, false⟩ ∧
    ((-2 : Int) < 0) := by
  constructor
  · rfl
  · decide

/-- C3 (amended): on every denied invocation the middleware responds 429
with the configured message and code, does not call the downstream handler,
and sends `Retry-After = ceil((resetAt - now2) / 1000)` where `now2` is the
second `Date.now()` read — with no clamping.  The value is nonnegative
whenever `now2 ≤ resetAt`, and the check's own clock read always satisfies
`now < resetAt` on denial. -/
theorem c3_denied_response (opts : RateLimiterOptions) (store : RateLimiterStore)
    (ip : Option String) (now nowAtHeader : Nat)
    (h : (store.check (ip.getD "unknown") now).1.isLimited = true) :
    (rateLimiterMiddleware opts store ip now nowAtHeader).1.status = some 429 ∧
    (rateLimiterMiddleware opts store ip now nowAtHeader).1.body
      = some ⟨false, opts.message, opts.code⟩ ∧
    (rateLimiterMiddleware opts store ip now nowAtHeader).1.nextCalled = false ∧
    (rateLimiterMiddleware opts store ip now nowAtHeader).1.headers
      = [("X-RateLimit-Limit", (opts.maxRequests : Int)),
         ("X-RateLimit-Remaining",
           (store.check (ip.getD "unknown") now).1.remaining),
         ("X-RateLimit-Reset",
           ceilDiv1000 ((store.check (ip.getD "unknown") now).1.resetAt : Int)),
         ("Retry-After",
           ceilDiv1000 (((store.check (ip.getD "unknown") now).1.resetAt : Int)
             - (nowAtHeader : Int)))] ∧
    (nowAtHeader ≤ (store.check (ip.getD "unknown") now).1.resetAt →
      0 ≤ ceilDiv1000 (((store.check (ip.getD "unknown") now).1.resetAt : Int)
        - (nowAtHeader : Int))) ∧
    now < (store.check (ip.getD "unknown") now).1.resetAt := by
  refine ⟨?_, ?_, ?_, ?_, ?_, RateLimiterStore.lt_resetAt_of_isLimited h⟩
  · simp [rateLimiterMiddleware, h]
  · simp [rateLimiterMiddleware, h]
  · simp [rateLimiterMiddleware, h]
  · simp [rateLimiterMiddleware, h]
  · intro hle
    apply ceilDiv1000_nonneg
    omega

/-- Witness for the amended C3: denied at `now = 0` with `resetAt = 1000`
and second read at 500, the response is 429/message/code, `next` is not
called, and `Retry-After = 1 ≥ 0`. -/
theorem c3_denied_response_witness :
    (rateLimiterMiddleware ⟨60000, 1, "m", "c"⟩
        ⟨[("k", ⟨1, 1000⟩)], 60000, 1⟩ (some "k") 0 500).1.status = some 429 ∧
    (rateLimiterMiddleware ⟨60000, 1, "m", "c"⟩
        ⟨[("k", ⟨1, 1000⟩)], 60000, 1⟩ (some "k") 0 500).1.body
      = some ⟨false, "m", "c"⟩ ∧
    (rateLimiterMiddleware ⟨60000, 1, "m", "c"⟩
        ⟨[("k", ⟨1, 1000⟩)], 60000, 1⟩ (some "k") 0 500).1.nextCalled = false ∧
    0 ≤ ceilDiv1000
      ((((⟨[("k", ⟨1, 1000⟩)], 60000, 1⟩ : RateLimiterStore).check "k" 0).1.resetAt
          : Int) - (500 : Nat)) := by
  have h := c3_denied_response ⟨60000, 1, "m", "c"⟩
    ⟨[("k", ⟨1, 1000⟩)], 60000, 1⟩ (some "k") 0 500 (by decide)
  exact ⟨h.1, h.2.1, h.2.2.1, h.2.2.2.2.1 (by decide)⟩

/-- `AppError` of `src/middleware/error-handler.ts`. -/
structure AppError where
  message : String
  statusCode : Nat
  code : String
  deriving DecidableEq

/-- A thrown JavaScript error: an `AppError` or anything else. -/
inductive JsError where
  | app (e : AppError)
  | other (message : String)
  deriving DecidableEq

/-- The `errorHandler` middleware: an `AppError` maps to its own status code
and the `{success: false, error: {message, code}}` envelope; any other error
becomes 500 / INTERNAL_ERROR. -/
def errorHandler : JsError → Nat × ErrorBody
  | .app e => (e.statusCode, ⟨false, e.message, e.code⟩)
  | .other _ => (500, ⟨false, "Internal server error", "INTERNAL_ERROR"⟩)

/-- `Link` of the link model (`createdAt` as a timestamp). -/
structure Link where
  id : String
  originalUrl : String
  shortCode : String
  createdAt : Nat
  deriving DecidableEq

/-- `InMemoryLinkRepository`: a `Map<string, Link>` keyed by link id. -/
structure LinkRepo where
  links : JsMap Link
  deriving DecidableEq

namespace LinkRepo

/-- `findById`. -/
def findById (r : LinkRepo) (id : String) : Option Link := jsGet id r.links

/-- `findByShortCode`: scans the map values in insertion order and returns
the first link whose `shortCode` matches. -/
def findByShortCode (r : LinkRepo) (shortCode : String) : Option Link :=
  (r.links.map Prod.snd).find? (fun l => l.shortCode == shortCode)

/-- `save`: stores the link under its id and returns it. -/
def save (r : LinkRepo) (link : Link) : Link × LinkRepo :=
  (link, ⟨jsSet link.id link r.links⟩)

theorem findByShortCode_shortCode {r : LinkRepo} {code : String} {L : Link}
    (h : r.findByShortCode code = some L) : L.shortCode = code := by
  unfold findByShortCode at h
  have := List.find?_some h
  simpa using this

end LinkRepo

/-- `CACHE_MAX_SIZE` in `link.service.ts`. -/
def CACHE_MAX_SIZE : Nat := 50

/-- `LinkService` state: the short-code-keyed and URL-keyed LRU caches and
the backing repository. -/
structure LinkService where
  shortCodeCache : LruCache Link
  urlCache : LruCache Link
  repo : LinkRepo
  deriving DecidableEq

namespace LinkService

/-- A fresh service over a repository, as built by `new LinkService(repo)`:
both caches empty with capacity `CACHE_MAX_SIZE`. -/
def init (repo : LinkRepo) : LinkService :=
  ⟨LruCache.empty CACHE_MAX_SIZE, LruCache.empty CACHE_MAX_SIZE, repo⟩

end LinkService

/-- Result of a service call: the returned link, or the thrown `AppError`. -/
inductive SvcResult where
  | ok (link : Link)
  | err (e : AppError)
  deriving DecidableEq

namespace LinkService

/-- `shortenUrl(originalUrl)`.  URL syntax validation (`new URL(url)`) and
the two `generateShortId()` draws are external effects passed in as the
predicate `validUrl` and the fresh strings `newId`, `newCode`; `now` is the
`new Date()` timestamp.  Validation failure throws before any store or
cache access; a URL-cache hit returns the cached link (that `get` promotes
it); otherwise the link is built, saved, and inserted into both caches. -/
def shortenUrl (validUrl : String → Bool) (newId newCode : String)
    (now : Nat) (s : LinkService) (originalUrl : String) :
    SvcResult × LinkService :=
  if validUrl originalUrl then
    let gr := s.urlCache.get originalUrl
    match gr.1 with
    | some cached => (.ok cached, { s with urlCache := gr.2 })
    | none =>
      let link : Link := ⟨newId, originalUrl, newCode, now⟩
      let sv := s.repo.save link
      let scc := s.shortCodeCache.set sv.1.shortCode sv.1
      let uc := gr.2.set sv.1.originalUrl sv.1
      (.ok sv.1, ⟨scc, uc, sv.2⟩)
  else
    (.err ⟨"Invalid URL provided", 400, "INVALID_URL"⟩, s)

/-- `resolveShortCode(shortCode)`: short-code cache first, then the store;
an absent code throws 404 LINK_NOT_FOUND; a store hit populates both
caches. -/
def resolveShortCode (s : LinkService) (shortCode : String) :
    SvcResult × LinkService :=
  let gr := s.shortCodeCache.get shortCode
  match gr.1 with
  | some cached => (.ok cached, { s with shortCodeCache := gr.2 })
  | none =>
    match s.repo.findByShortCode shortCode with
    | none => (.err ⟨"Short link not found", 404, "LINK_NOT_FOUND"⟩,
        { s with shortCodeCache := gr.2 })
    | some link =>
      (.ok link,
       { s with shortCodeCache := gr.2.set shortCode link,
                urlCache := s.urlCache.set link.originalUrl link })

theorem shortenUrl_invalid {validUrl : String → Bool} {u : String}
    (h : validUrl u = false) (newId newCode : String) (now : Nat)
    (s : LinkService) :
    shortenUrl validUrl newId newCode now s u
      = (.err ⟨"Invalid URL provided", 400, "INVALID_URL"⟩, s) := by
  simp [shortenUrl, h]

theorem shortenUrl_hit {validUrl : String → Bool} {u : String} {L : Link}
    {s : LinkService} (hv : validUrl u = true)
    (hc : jsGet u s.urlCache.entries = some L)
    (newId newCode : String) (now : Nat) :
    shortenUrl validUrl newId newCode now s u
      = (.ok L, { s with urlCache := (s.urlCache.get u).2 }) := by
  have hfst : (s.urlCache.get u).1 = some L := by
    unfold LruCache.get
    rw [hc]
  simp [shortenUrl, hv, hfst]

theorem shortenUrl_miss {validUrl : String → Bool} {u : String}
    {s : LinkService} (hv : validUrl u = true)
    (hc : jsGet u s.urlCache.entries = none)
    (newId newCode : String) (now : Nat) :
    shortenUrl validUrl newId newCode now s u
      = (.ok ⟨newId, u, newCode, now⟩,
         ⟨s.shortCodeCache.set newCode ⟨newId, u, newCode, now⟩,
          s.urlCache.set u ⟨newId, u, newCode, now⟩,
          ⟨jsSet newId ⟨newId, u, newCode, now⟩ s.repo.links⟩⟩) := by
  have hg : s.urlCache.get u = (none, s.urlCache) := LruCache.get_of_jsGet_none hc
  simp [shortenUrl, hv, hg, LinkRepo.save]

theorem resolveShortCode_hit {code : String} {L : Link} {s : LinkService}
    (hc : jsGet code s.shortCodeCache.entries = some L) :
    resolveShortCode s code
      = (.ok L, { s with shortCodeCache := (s.shortCodeCache.get code).2 }) := by
  have hfst : (s.shortCodeCache.get code).1 = some L := by
    unfold LruCache.get
    rw [hc]
  simp [resolveShortCode, hfst]

theorem resolveShortCode_absent {code : String} {s : LinkService}
    (hc : jsGet code s.shortCodeCache.entries = none)
    (hf : s.repo.findByShortCode code = none) :
    resolveShortCode s code
      = (.err ⟨"Short link not found", 404, "LINK_NOT_FOUND"⟩, s) := by
  have hg : s.shortCodeCache.get code = (none, s.shortCodeCache) :=
    LruCache.get_of_jsGet_none hc
  simp [resolveShortCode, hg, hf]

theorem resolveShortCode_found {code : String} {L : Link} {s : LinkService}
    (hc : jsGet code s.shortCodeCache.entries = none)
    (hf : s.repo.findByShortCode code = some L) :
    resolveShortCode s code
      = (.ok L,
         { s with
             shortCodeCache := s.shortCodeCache.set code L
             urlCache := s.urlCache.set L.originalUrl L }) := by
  have hg : s.shortCodeCache.get code = (none, s.shortCodeCache) :=
    LruCache.get_of_jsGet_none hc
  simp [resolveShortCode, hg, hf]

end LinkService

/-- C8: when the URL fails validation, `shortenUrl` throws the 400 /
INVALID_URL `AppError` (translated by the error handler to status 400 with
that code) and the whole service state — repository, short-code cache and
URL cache — is exactly as before the call. -/
theorem c8_invalid_input_atomicity (validUrl : String → Bool)
    (newId newCode : String) (now : Nat) (s : LinkService) (u : String)
    (h : validUrl u = false) :
    LinkService.shortenUrl validUrl newId newCode now s u
      = (.err ⟨"Invalid URL provided", 400, "INVALID_URL"⟩, s) ∧
    errorHandler (.app ⟨"Invalid URL provided", 400, "INVALID_URL"⟩)
      = (400, ⟨false, "Invalid URL provided", "INVALID_URL"⟩) :=
  ⟨LinkService.shortenUrl_invalid h newId newCode now s, rfl⟩

/-- Witness for C8 on a fresh service and the string from the spec. -/
theorem c8_invalid_input_atomicity_witness :
    LinkService.shortenUrl (fun _ => false) "id1" "c1" 0
        (LinkService.init ⟨[]⟩) "not a url"
      = (.err ⟨"Invalid URL provided", 400, "INVALID_URL"⟩,
         LinkService.init ⟨[]⟩) ∧
    errorHandler (.app ⟨"Invalid URL provided", 400, "INVALID_URL"⟩)
      = (400, ⟨false, "Invalid URL provided", "INVALID_URL"⟩) :=
  c8_invalid_input_atomicity (fun _ => false) "id1" "c1" 0
    (LinkService.init ⟨[]⟩) "not a url" rfl

/-- C7: when the URL-keyed cache holds a link for a valid URL, `shortenUrl`
returns that cached link unchanged, leaves the repository and the
short-code cache untouched, and its entire outcome is independent of the
fresh identifier draws and the clock; consequently two consecutive creates
of the same URL (the first result still cached) return the identical
link. -/
theorem c7_cache_scoped_dedup :
    (∀ (validUrl : String → Bool) (a b a2 b2 : String) (now now2 : Nat)
        (s : LinkService) (u : String) (L : Link),
      validUrl u = true →
      jsGet u s.urlCache.entries = some L →
      (LinkService.shortenUrl validUrl a b now s u).1 = .ok L ∧
      (LinkService.shortenUrl validUrl a b now s u).2.repo = s.repo ∧
      (LinkService.shortenUrl validUrl a b now s u).2.shortCodeCache
        = s.shortCodeCache ∧
      LinkService.shortenUrl validUrl a b now s u
        = LinkService.shortenUrl validUrl a2 b2 now2 s u) ∧
    (∀ (validUrl : String → Bool) (a b a2 b2 : String) (now now2 : Nat)
        (s : LinkService) (u : String) (L : Link) (s1 : LinkService),
      validUrl u = true →
      (keysOf s.urlCache.entries).Nodup →
      1 ≤ s.urlCache.maxSize →
      LinkService.shortenUrl validUrl a b now s u = (.ok L, s1) →
      (LinkService.shortenUrl validUrl a2 b2 now2 s1 u).1 = .ok L) := by
  constructor
  · intro validUrl a b a2 b2 now now2 s u L hv hc
    have he := LinkService.shortenUrl_hit hv hc a b now
    have he2 := LinkService.shortenUrl_hit hv hc a2 b2 now2
    refine ⟨?_, ?_, ?_, he.trans he2.symm⟩
    · rw [he]
    · rw [he]
    · rw [he]
  · intro validUrl a b a2 b2 now now2 s u L s1 hv hnd hcap hsu
    cases hc : jsGet u s.urlCache.entries with
    | some L0 =>
      rw [LinkService.shortenUrl_hit hv hc a b now] at hsu
      injection hsu with hres hstate
      injection hres with hL
      have hc1 : jsGet u s1.urlCache.entries = some L := by
        rw [← hstate]
        dsimp only
        rw [LruCache.jsGet_get_snd hnd u u, hc, hL]
      rw [LinkService.shortenUrl_hit hv hc1 a2 b2 now2]
    | none =>
      rw [LinkService.shortenUrl_miss hv hc a b now] at hsu
      injection hsu with hres hstate
      injection hres with hL
      have hc1 : jsGet u s1.urlCache.entries = some L := by
        rw [← hstate]
        dsimp only
        rw [← hL]
        exact LruCache.jsGet_set_self hnd hcap u _
      rw [LinkService.shortenUrl_hit hv hc1 a2 b2 now2]

/-- Witness for C7: a cached URL is returned unchanged regardless of the
fresh draws, and two consecutive creates of one URL agree. -/
theorem c7_cache_scoped_dedup_witness :
    ((LinkService.shortenUrl (fun _ => true) "x" "y" 1
        ⟨LruCache.empty 50, ⟨[("https://e.com", ⟨"id1", "https://e.com", "c1", 0⟩)], 50⟩, ⟨[]⟩⟩
        "https://e.com").1 = .ok ⟨"id1", "https://e.com", "c1", 0⟩) ∧
    ((LinkService.shortenUrl (fun _ => true) "id2" "c2" 5
        (LinkService.shortenUrl (fun _ => true) "id1" "c1" 0
          (LinkService.init ⟨[]⟩) "https://e.com").2
        "https://e.com").1 = .ok ⟨"id1", "https://e.com", "c1", 0⟩) := by
  constructor
  · exact (c7_cache_scoped_dedup.1 (fun _ => true) "x" "y" "z" "w" 1 2
      ⟨LruCache.empty 50, ⟨[("https://e.com", ⟨"id1", "https://e.com", "c1", 0⟩)], 50⟩, ⟨[]⟩⟩
      "https://e.com" ⟨"id1", "https://e.com", "c1", 0⟩ rfl (by decide)).1
  · exact c7_cache_scoped_dedup.2 (fun _ => true) "id1" "c1" "id2" "c2" 0 5
      (LinkService.init ⟨[]⟩) "https://e.com" ⟨"id1", "https://e.com", "c1", 0⟩
      (LinkService.shortenUrl (fun _ => true) "id1" "c1" 0
        (LinkService.init ⟨[]⟩) "https://e.com").2
      rfl (by decide) (by decide) (by decide)

/-- C9: `resolveShortCode` throws exactly the 404 / LINK_NOT_FOUND error,
and it does so precisely when both the short-code cache misses and the
store has no link for the code; when the store does hold a link the call
returns it and populates both caches with it. -/
theorem c9_resolve_not_found_iff (s : LinkService) (code : String) :
    (((LinkService.resolveShortCode s code).1
        = .err ⟨"Short link not found", 404, "LINK_NOT_FOUND"⟩)
      ↔ (jsGet code s.shortCodeCache.entries = none ∧
          s.repo.findByShortCode code = none)) ∧
    (∀ e, (LinkService.resolveShortCode s code).1 = .err e →
      e = ⟨"Short link not found", 404, "LINK_NOT_FOUND"⟩) ∧
    (errorHandler (.app ⟨"Short link not found", 404, "LINK_NOT_FOUND"⟩)
      = (404, ⟨false, "Short link not found", "LINK_NOT_FOUND"⟩)) ∧
    (∀ L : Link,
      jsGet code s.shortCodeCache.entries = none →
      s.repo.findByShortCode code = some L →
      (keysOf s.shortCodeCache.entries).Nodup →
      (keysOf s.urlCache.entries).Nodup →
      1 ≤ s.shortCodeCache.maxSize → 1 ≤ s.urlCache.maxSize →
      (LinkService.resolveShortCode s code).1 = .ok L ∧
      jsGet code
        (LinkService.resolveShortCode s code).2.shortCodeCache.entries
          = some L ∧
      jsGet L.originalUrl
        (LinkService.resolveShortCode s code).2.urlCache.entries = some L) := by
  refine ⟨?_, ?_, rfl, ?_⟩
  · constructor
    · intro herr
      cases hc : jsGet code s.shortCodeCache.entries with
      | some L0 =>
        rw [LinkService.resolveShortCode_hit hc] at herr
        simp at herr
      | none =>
        cases hf : s.repo.findByShortCode code with
        | some L0 =>
          rw [LinkService.resolveShortCode_found hc hf] at herr
          simp at herr
        | none => exact ⟨rfl, rfl⟩
    · rintro ⟨hc, hf⟩
      rw [LinkService.resolveShortCode_absent hc hf]
  · intro e herr
    cases hc : jsGet code s.shortCodeCache.entries with
    | some L0 =>
      rw [LinkService.resolveShortCode_hit hc] at herr
      simp at herr
    | none =>
      cases hf : s.repo.findByShortCode code with
      | some L0 =>
        rw [LinkService.resolveShortCode_found hc hf] at herr
        simp at herr
      | none =>
        rw [LinkService.resolveShortCode_absent hc hf] at herr
        dsimp only at herr
        injection herr with he
        exact he.symm
  · intro L hc hf hnd1 hnd2 hcap1 hcap2
    rw [LinkService.resolveShortCode_found hc hf]
    dsimp only
    exact ⟨rfl, LruCache.jsGet_set_self hnd1 hcap1 code L,
      LruCache.jsGet_set_self hnd2 hcap2 L.originalUrl L⟩

/-- Witness for C9: resolving an unknown code on a fresh service errors with
LINK_NOT_FOUND; resolving a code held by the store returns it and fills
both caches. -/
theorem c9_resolve_not_found_iff_witness :
    ((LinkService.resolveShortCode (LinkService.init ⟨[]⟩) "zzz").1
      = .err ⟨"Short link not found", 404, "LINK_NOT_FOUND"⟩) ∧
    ((LinkService.resolveShortCode
        (LinkService.init ⟨[("id1", ⟨"id1", "https://e.com", "abc", 0⟩)]⟩)
        "abc").1 = .ok ⟨"id1", "https://e.com", "abc", 0⟩) ∧
    (jsGet "abc"
      (LinkService.resolveShortCode
        (LinkService.init ⟨[("id1", ⟨"id1", "https://e.com", "abc", 0⟩)]⟩)
        "abc").2.shortCodeCache.entries
      = some ⟨"id1", "https://e.com", "abc", 0⟩) ∧
    (jsGet "https://e.com"
      (LinkService.resolveShortCode
        (LinkService.init ⟨[("id1", ⟨"id1", "https://e.com", "abc", 0⟩)]⟩)
        "abc").2.urlCache.entries
      = some ⟨"id1", "https://e.com", "abc", 0⟩) := by
  have h1 := (c9_resolve_not_found_iff (LinkService.init ⟨[]⟩) "zzz").1.mpr
    ⟨by decide, by decide⟩
  have h2 := (c9_resolve_not_found_iff
    (LinkService.init ⟨[("id1", ⟨"id1", "https://e.com", "abc", 0⟩)]⟩)
    "abc").2.2.2 ⟨"id1", "https://e.com", "abc", 0⟩
    (by decide) (by decide) (by decide) (by decide) (by decide) (by decide)
  exact ⟨h1, h2.1, h2.2.1, h2.2.2⟩

/-- C6: neither `shortenUrl` nor `resolveShortCode` ever leaves a link newly
cached under only one of its two keys: if an operation makes the short-code
cache map `L.shortCode` to `L` where it did not before, then after the same
operation the URL cache maps `L.originalUrl` to `L`, and vice versa. -/
theorem c6_caches_written_together (s : LinkService)
    (hnd1 : (keysOf s.shortCodeCache.entries).Nodup)
    (hnd2 : (keysOf s.urlCache.entries).Nodup)
    (hcap1 : 1 ≤ s.shortCodeCache.maxSize)
    (hcap2 : 1 ≤ s.urlCache.maxSize) :
    (∀ (validUrl : String → Bool) (a b : String) (now : Nat) (u : String)
        (L : Link),
      ((jsGet L.shortCode
          (LinkService.shortenUrl validUrl a b now s u).2.shortCodeCache.entries
            = some L ∧
        jsGet L.shortCode s.shortCodeCache.entries ≠ some L) →
        jsGet L.originalUrl
          (LinkService.shortenUrl validUrl a b now s u).2.urlCache.entries
            = some L) ∧
      ((jsGet L.originalUrl
          (LinkService.shortenUrl validUrl a b now s u).2.urlCache.entries
            = some L ∧
        jsGet L.originalUrl s.urlCache.entries ≠ some L) →
        jsGet L.shortCode
          (LinkService.shortenUrl validUrl a b now s u).2.shortCodeCache.entries
            = some L)) ∧
    (∀ (code : String) (L : Link),
      ((jsGet L.shortCode
          (LinkService.resolveShortCode s code).2.shortCodeCache.entries
            = some L ∧
        jsGet L.shortCode s.shortCodeCache.entries ≠ some L) →
        jsGet L.originalUrl
          (LinkService.resolveShortCode s code).2.urlCache.entries = some L) ∧
      ((jsGet L.originalUrl
          (LinkService.resolveShortCode s code).2.urlCache.entries = some L ∧
        jsGet L.originalUrl s.urlCache.entries ≠ some L) →
        jsGet L.shortCode
          (LinkService.resolveShortCode s code).2.shortCodeCache.entries
            = some L)) := by
  constructor
  · intro validUrl a b now u L
    cases hvb : validUrl u with
    | false =>
      rw [LinkService.shortenUrl_invalid hvb]
      dsimp only
      constructor
      · rintro ⟨h1, h2⟩
        exact absurd h1 h2
      · rintro ⟨h1, h2⟩
        exact absurd h1 h2
    | true =>
      cases hc : jsGet u s.urlCache.entries with
      | some L0 =>
        rw [LinkService.shortenUrl_hit hvb hc a b now]
        dsimp only
        constructor
        · rintro ⟨h1, h2⟩
          exact absurd h1 h2
        · rintro ⟨h1, h2⟩
          rw [LruCache.jsGet_get_snd hnd2 u L.originalUrl] at h1
          exact absurd h1 h2
      | none =>
        rw [LinkService.shortenUrl_miss hvb hc a b now]
        dsimp only
        constructor
        · rintro ⟨h1, h2⟩
          by_cases hkey : L.shortCode = b
          · rw [hkey, LruCache.jsGet_set_self hnd1 hcap1 b ⟨a, u, b, now⟩] at h1
            injection h1 with hL
            subst hL
            exact LruCache.jsGet_set_self hnd2 hcap2 u _
          · exact absurd (LruCache.jsGet_set_ne_of_some hnd1 hkey h1) h2
        · rintro ⟨h1, h2⟩
          by_cases hkey : L.originalUrl = u
          · rw [hkey, LruCache.jsGet_set_self hnd2 hcap2 u ⟨a, u, b, now⟩] at h1
            injection h1 with hL
            subst hL
            exact LruCache.jsGet_set_self hnd1 hcap1 b _
          · exact absurd (LruCache.jsGet_set_ne_of_some hnd2 hkey h1) h2
  · intro code L
    cases hcc : jsGet code s.shortCodeCache.entries with
    | some L0 =>
      rw [LinkService.resolveShortCode_hit hcc]
      dsimp only
      constructor
      · rintro ⟨h1, h2⟩
        rw [LruCache.jsGet_get_snd hnd1 code L.shortCode] at h1
        exact absurd h1 h2
      · rintro ⟨h1, h2⟩
        exact absurd h1 h2
    | none =>
      cases hf : s.repo.findByShortCode code with
      | none =>
        rw [LinkService.resolveShortCode_absent hcc hf]
        dsimp only
        constructor
        · rintro ⟨h1, h2⟩
          exact absurd h1 h2
        · rintro ⟨h1, h2⟩
          exact absurd h1 h2
      | some L0 =>
        have hcode : L0.shortCode = code :=
          LinkRepo.findByShortCode_shortCode hf
        rw [LinkService.resolveShortCode_found hcc hf]
        dsimp only
        constructor
        · rintro ⟨h1, h2⟩
          by_cases hkey : L.shortCode = code
          · rw [hkey, LruCache.jsGet_set_self hnd1 hcap1 code L0] at h1
            injection h1 with hL
            subst hL
            exact LruCache.jsGet_set_self hnd2 hcap2 L0.originalUrl L0
          · exact absurd (LruCache.jsGet_set_ne_of_some hnd1 hkey h1) h2
        · rintro ⟨h1, h2⟩
          by_cases hkey : L.originalUrl = L0.originalUrl
          · rw [hkey, LruCache.jsGet_set_self hnd2 hcap2 L0.originalUrl L0] at h1
            injection h1 with hL
            subst hL
            rw [hcode]
            exact LruCache.jsGet_set_self hnd1 hcap1 code L0
          · exact absurd (LruCache.jsGet_set_ne_of_some hnd2 hkey h1) h2

/-- Witness for C6: a store-backed resolve newly caches the link under its
short code, and the same call also caches it under its URL (and the
URL-side instantiation symmetrically). -/
theorem c6_caches_written_together_witness :
    (jsGet "https://e.com"
      (LinkService.resolveShortCode
        (LinkService.init ⟨[("id1", ⟨"id1", "https://e.com", "abc", 0⟩)]⟩)
        "abc").2.urlCache.entries
      = some ⟨"id1", "https://e.com", "abc", 0⟩) ∧
    (jsGet "c1"
      (LinkService.shortenUrl (fun _ => true) "id2" "c1" 3
        (LinkService.init ⟨[]⟩) "https://f.com").2.shortCodeCache.entries
      = some ⟨"id2", "https://f.com", "c1", 3⟩) := by
  constructor
  · exact ((c6_caches_written_together
      (LinkService.init ⟨[("id1", ⟨"id1", "https://e.com", "abc", 0⟩)]⟩)
      (by decide) (by decide) (by decide) (by decide)).2 "abc"
      ⟨"id1", "https://e.com", "abc", 0⟩).1 ⟨by decide, by decide⟩
  · exact ((c6_caches_written_together (LinkService.init ⟨[]⟩)
      (by decide) (by decide) (by decide) (by decide)).1 (fun _ => true)
      "id2" "c1" 3 "https://f.com"
      ⟨"id2", "https://f.com", "c1", 3⟩).2 ⟨by decide, by decide⟩
